import Mathlib

/-!
Verification of the nested annotation-span parser from the
knowledge-graph repository (notebook `Script_compare_annotations.ipynb`).

Strings are modelled as `List Char`.  The scan `a_check` walks the string
with begin/end tag counters; the Python expression `astr[i+1]` raises an
`IndexError` when `i + 1` is out of range, which we model by returning
`none` from the scan.  The recursive driver `a_iterate` is embedded with
explicit fuel (`a_iterateF`); `a_iterate` runs it with fuel
`astr.length + 1`, and we prove that this fuel never runs out.
-/

/-- Convert a string literal to the `List Char` representation. -/
def str (s : String) : List Char := s.data

/-- Python slice `s[a:b]` for non-negative indices: characters at
positions `a ≤ j < min b s.length`. -/
def pySlice (s : List Char) (a b : Nat) : List Char := (s.drop a).take (b - a)

/-- First index of `c` in `l`, if any. -/
def pyFindAux (c : Char) : List Char → Option Nat
  | [] => none
  | x :: xs => if x = c then some 0 else (pyFindAux c xs).map (· + 1)

/-- Python `s.find(c)` : index of the first occurrence of `c`, `-1` if absent. -/
def pyFind (s : List Char) (c : Char) : Int :=
  match pyFindAux c s with
  | some i => (i : Int)
  | none => -1

/-- Python `s.rfind(c)` : index of the last occurrence of `c`, `-1` if absent. -/
def pyRfind (s : List Char) (c : Char) : Int :=
  match pyFindAux c s.reverse with
  | some i => (s.length : Int) - 1 - i
  | none => -1

/-- Python slice `s[a:b]` with `Int` indices (negative indices count from
the end, then indices are clamped to `[0, len]`). -/
def pySliceI (s : List Char) (a b : Int) : List Char :=
  let n : Int := s.length
  let a2 : Int := if a < 0 then max (a + n) 0 else min a n
  let b2 : Int := if b < 0 then max (b + n) 0 else min b n
  (s.drop a2.toNat).take (b2 - a2).toNat

/-- State of the `a_check` scan: entity list, begin-tag count, begin-tag
index, end-tag count, end-tag index (`iEnd` is written but never read
before being reassigned; it is kept for fidelity to the source). -/
structure ACheckSt where
  entL : List (List Char)
  cBgn : Nat
  iBgn : Nat
  cEnd : Nat
  iEnd : Nat
deriving DecidableEq, Repr

/-- Initial scan state: `entL = []`, all counters and indices zero. -/
def initSt : ACheckSt := ⟨[], 0, 0, 0, 0⟩

/-- One iteration of the `a_check` loop body at index `i` (version 1,
end-tag width `len("</>") = 3`).  Returns `none` exactly when the source
would raise `IndexError` on `astr[i+1]`. -/
def a_check_step (astr : List Char) (i : Nat) (st : ACheckSt) : Option ACheckSt :=
  match astr[i]? with
  | none => some st
  | some c =>
    if c = '<' then
      match astr[i+1]? with
      | none => none
      | some c2 =>
        if c2 = '/' then
          if st.cEnd + 1 = st.cBgn then
            some ⟨st.entL ++ [pySlice astr st.iBgn (i + 3)], 0, 0, 0, 0⟩
          else
            some ⟨st.entL, st.cBgn, st.iBgn, st.cEnd + 1, st.iEnd⟩
        else
          some ⟨st.entL, st.cBgn + 1, if st.cBgn = 0 then i else st.iBgn,
                st.cEnd, st.iEnd⟩
    else some st

/-- Run `k` iterations of the `a_check` loop starting at index `i`. -/
def a_check_loop (astr : List Char) : Nat → Nat → ACheckSt → Option ACheckSt
  | _, 0, st => some st
  | i, k+1, st =>
    match a_check_step astr i st with
    | none => none
    | some st2 => a_check_loop astr (i+1) k st2

/-- The top-level span scan `a_check` (version 1): `none` models the
`IndexError` on `astr[i+1]`. -/
def a_check (astr : List Char) : Option (List (List Char)) :=
  (a_check_loop astr 0 astr.length initSt).map ACheckSt.entL

/-- Python `s.split(sep)` on `List Char`, with fuel (the fuel
`s.length` always suffices; each step consumes at least one character). -/
def splitOnSubF (sep : List Char) : Nat → List Char → List Char → List (List Char)
  | _, [], acc => [acc.reverse]
  | 0, s, acc => [acc.reverse ++ s]
  | f+1, c :: rest, acc =>
    if sep.isPrefixOf (c :: rest) ∧ sep ≠ [] then
      acc.reverse :: splitOnSubF sep f ((c :: rest).drop sep.length) []
    else
      splitOnSubF sep f rest (c :: acc)

/-- Python `s.split(sep)`: non-overlapping, leftmost-first. -/
def splitOnSub (sep s : List Char) : List (List Char) :=
  splitOnSubF sep s.length s []

/-- The string appended by `strip_tags` (version 1): split on `"<>"`,
split every piece on `"</>"`, concatenate all fragments. -/
def detag (s : List Char) : List Char :=
  (((splitOnSub (str "<>") s).map (splitOnSub (str "</>"))).flatten).flatten

/-- `strip_tags` (version 1): appends the fully de-tagged string to the
accumulator. -/
def strip_tags (astr2 : List Char) (alist : List (List Char)) : List (List Char) :=
  alist ++ [detag astr2]

/-- `strip_outer`: the substring strictly between the first `'>'` and the
last `'<'` (Python `astr2[astr2.find(">")+1:astr2.rfind("<")]`). -/
def strip_outer (astr2 : List Char) : List Char :=
  pySliceI astr2 (pyFind astr2 '>' + 1) (pyRfind astr2 '<')

/-- Result of the recursive driver: normal result, propagated
`IndexError`, or fuel exhaustion (the last is proved unreachable). -/
inductive IterResult where
  | fuelOut : IterResult
  | fault : IterResult
  | ok : List (List Char) → IterResult
deriving DecidableEq, Repr

/-- `a_iterate` with explicit fuel (version 1).  Singleton scan result:
append the de-tagged span and recurse on the span with its outer tags
stripped; otherwise recurse on each span from left to right. -/
def a_iterateF : Nat → List Char → List (List Char) → IterResult
  | 0, _, _ => .fuelOut
  | f+1, astr, alist =>
    match a_check astr with
    | none => .fault
    | some [sp] => a_iterateF f (strip_outer sp) (strip_tags sp alist)
    | some spans =>
      spans.foldl
        (fun r sp =>
          match r with
          | .ok acc => a_iterateF f sp acc
          | r => r)
        (.ok alist)

/-- `a_iterate` (version 1), run with fuel `astr.length + 1` (sufficient,
as proved below). -/
def a_iterate (astr : List Char) (alist : List (List Char)) : IterResult :=
  a_iterateF (astr.length + 1) astr alist

/-- `parse`: `a_iterate` started with an empty accumulator. -/
def parse (astr : List Char) : IterResult := a_iterate astr []

/-! Version 2 of the parser (second code cell): identical control flow,
but the end-tag index uses `len("</ent>") = 6` and `strip_tags` splits on
`"<ent>"` / `"</ent>"`. -/

/-- One iteration of the version-2 `a_check` loop body (end-tag width 6). -/
def a_check2_step (astr : List Char) (i : Nat) (st : ACheckSt) : Option ACheckSt :=
  match astr[i]? with
  | none => some st
  | some c =>
    if c = '<' then
      match astr[i+1]? with
      | none => none
      | some c2 =>
        if c2 = '/' then
          if st.cEnd + 1 = st.cBgn then
            some ⟨st.entL ++ [pySlice astr st.iBgn (i + 6)], 0, 0, 0, 0⟩
          else
            some ⟨st.entL, st.cBgn, st.iBgn, st.cEnd + 1, st.iEnd⟩
        else
          some ⟨st.entL, st.cBgn + 1, if st.cBgn = 0 then i else st.iBgn,
                st.cEnd, st.iEnd⟩
    else some st

/-- Run `k` iterations of the version-2 `a_check` loop from index `i`. -/
def a_check2_loop (astr : List Char) : Nat → Nat → ACheckSt → Option ACheckSt
  | _, 0, st => some st
  | i, k+1, st =>
    match a_check2_step astr i st with
    | none => none
    | some st2 => a_check2_loop astr (i+1) k st2

/-- The top-level span scan `a_check` of version 2. -/
def a_check2 (astr : List Char) : Option (List (List Char)) :=
  (a_check2_loop astr 0 astr.length initSt).map ACheckSt.entL

/-- The string appended by version 2's `strip_tags`: split on `"<ent>"`,
split every piece on `"</ent>"`, concatenate. -/
def detag2 (s : List Char) : List Char :=
  (((splitOnSub (str "<ent>") s).map (splitOnSub (str "</ent>"))).flatten).flatten

/-- `strip_tags` of version 2. -/
def strip_tags2 (astr2 : List Char) (alist : List (List Char)) : List (List Char) :=
  alist ++ [detag2 astr2]

/-- `strip_outer` of version 2 (textually identical to version 1's). -/
def strip_outer2 (astr2 : List Char) : List Char :=
  pySliceI astr2 (pyFind astr2 '>' + 1) (pyRfind astr2 '<')

/-- Version 2 of `a_iterate`, with fuel. -/
def a_iterate2F : Nat → List Char → List (List Char) → IterResult
  | 0, _, _ => .fuelOut
  | f+1, astr, alist =>
    match a_check2 astr with
    | none => .fault
    | some [sp] => a_iterate2F f (strip_outer2 sp) (strip_tags2 sp alist)
    | some spans =>
      spans.foldl
        (fun r sp =>
          match r with
          | .ok acc => a_iterate2F f sp acc
          | r => r)
        (.ok alist)

/-- Version 2 of `a_iterate`. -/
def a_iterate2 (astr : List Char) (alist : List (List Char)) : IterResult :=
  a_iterate2F (astr.length + 1) astr alist

/-! Basic lemmas about the scan loop. -/

lemma a_check_loop_add (astr : List Char) (k1 k2 : Nat) :
    ∀ i st, a_check_loop astr i (k1 + k2) st =
      (a_check_loop astr i k1 st).bind (fun st2 => a_check_loop astr (i + k1) k2 st2) := by
  induction k1 with
  | zero => intro i st; simp [a_check_loop]
  | succ k ih =>
    intro i st
    have h1 : k + 1 + k2 = (k + k2) + 1 := by omega
    rw [h1]
    cases hstep : a_check_step astr i st with
    | none => simp [a_check_loop, hstep]
    | some st2 =>
      simp only [a_check_loop, hstep]
      rw [ih (i+1) st2]
      have h2 : i + (k + 1) = (i + 1) + k := by omega
      rw [h2]

lemma a_check_loop_skip (astr : List Char) :
    ∀ k i st, (∀ j, j < k → ∀ c, astr[i+j]? = some c → c ≠ '<') →
      a_check_loop astr i k st = some st := by
  intro k
  induction k with
  | zero => intro i st _; rfl
  | succ k ih =>
    intro i st h
    have hstep : a_check_step astr i st = some st := by
      unfold a_check_step
      cases hg : astr[i]? with
      | none => rfl
      | some c =>
        have hc : c ≠ '<' := h 0 (by omega) c (by simpa using hg)
        simp [hc]
    simp only [a_check_loop, hstep]
    exact ih (i+1) st (fun j hj c hc => h (j+1) (by omega) c (by
      have : i + 1 + j = i + (j + 1) := by omega
      rwa [this] at hc))

lemma a_check_no_lt (astr : List Char) (h : ∀ c ∈ astr, c ≠ '<') :
    a_check astr = some [] := by
  unfold a_check
  rw [a_check_loop_skip astr astr.length 0 initSt
    (fun j _ c hc => h c (List.getElem?_mem hc))]
  rfl

lemma a_check_loop_fault (astr : List Char) :
    ∀ k i st, i + k = astr.length → 1 ≤ k →
      astr[astr.length - 1]? = some '<' →
      a_check_loop astr i k st = none := by
  intro k
  induction k with
  | zero => omega
  | succ k ih =>
    intro i st hik _ hlast
    by_cases hk : k = 0
    · subst hk
      have hi : i = astr.length - 1 := by omega
      have hstep : a_check_step astr i st = none := by
        unfold a_check_step
        rw [hi, hlast]
        have : astr[astr.length - 1 + 1]? = none := by
          apply List.getElem?_eq_none
          omega
        simp [this]
      simp [a_check_loop, hstep]
    · cases hstep : a_check_step astr i st with
      | none => simp [a_check_loop, hstep]
      | some st2 =>
        simp only [a_check_loop, hstep]
        exact ih (i+1) st2 (by omega) (by omega) hlast

lemma a_check_step_none_iff (astr : List Char) (i : Nat) (st : ACheckSt) :
    a_check_step astr i st = none ↔ (astr[i]? = some '<' ∧ astr[i+1]? = none) := by
  unfold a_check_step
  cases hg : astr[i]? with
  | none => simp
  | some c =>
    by_cases hc : c = '<'
    · subst hc
      cases hg2 : astr[i+1]? with
      | none => simp
      | some c2 =>
        by_cases hc2 : c2 = '/'
        · by_cases hemit : st.cEnd + 1 = st.cBgn
          · simp [hc2, hemit]
          · simp [hc2, hemit]
        · simp [hc2]
    · simp [hc]

lemma a_check_loop_ok (astr : List Char) :
    ∀ k i st, i + k = astr.length → astr[astr.length - 1]? ≠ some '<' →
      ∃ st2, a_check_loop astr i k st = some st2 := by
  intro k
  induction k with
  | zero => exact fun i st _ _ => ⟨st, rfl⟩
  | succ k ih =>
    intro i st hik hlast
    cases hstep : a_check_step astr i st with
    | none =>
      exfalso
      obtain ⟨hg, hg2⟩ := (a_check_step_none_iff astr i st).mp hstep
      have hi : i < astr.length := (List.getElem?_eq_some.mp hg).1
      have h2 : astr.length ≤ i + 1 := by
        by_contra hcon
        rw [List.getElem?_eq_some.mpr ⟨by omega, rfl⟩] at hg2
        exact Option.noConfusion hg2
      have heq : i = astr.length - 1 := by omega
      rw [heq] at hg
      exact hlast hg
    | some st2 =>
      simp only [a_check_loop, hstep]
      exact ih (i+1) st2 (by omega) hlast

/-- C1: for the input `"<><><>X</> Y</> <>Z</></>"`, `parse` (that is,
`a_iterate` started with an empty accumulator) returns exactly
`["X Y Z", "X Y", "X", "Z"]`, outermost first, depth-first,
left-to-right. -/
theorem C1_worked_trace :
    parse (str "<><><>X</> Y</> <>Z</></>") =
      .ok [str "X Y Z", str "X Y", str "X", str "Z"] := by decide

/-- C2 counterexample: the claim that the scan's error branch is
unreachable for every input is false; on the input `"<"` the access
`astr[i+1]` is out of range and `parse` propagates the fault. -/
theorem C2_cex : parse (str "<") = .fault := by decide

/-- C2 amended: the scan faults exactly on the strings whose last
character is `'<'`; on every other input the scan (and hence the error
branch of `astr[i+1]`) completes without fault. -/
theorem C2_fault_iff (astr : List Char) :
    a_check astr = none ↔ astr.getLast? = some '<' := by
  unfold a_check
  rw [List.getLast?_eq_getElem? astr]
  constructor
  · intro h
    by_contra hlast
    obtain ⟨st2, hloop⟩ := a_check_loop_ok astr astr.length 0 initSt (by omega) hlast
    rw [hloop] at h
    simp at h
  · intro hlast
    have hn : 1 ≤ astr.length := by
      by_contra h0
      have h1 : astr.length = 0 := by omega
      have h2 : astr = [] := List.length_eq_zero.mp h1
      subst h2
      simp at hlast
    rw [a_check_loop_fault astr astr.length 0 initSt (by omega) hn hlast]
    rfl

/-- C4: for every input string in which the scan finds no tag occurrence
at all (no `'<'` character), `a_iterate` returns its accumulator
unchanged; with an empty starting accumulator, `parse` returns `ok []`. -/
theorem C4_no_tags (astr : List Char) (alist : List (List Char))
    (h : ∀ c ∈ astr, c ≠ '<') : a_iterate astr alist = .ok alist := by
  unfold a_iterate
  simp only [a_iterateF, a_check_no_lt astr h]
  rfl

/-- C4 witness: the tag-free input `"a bc"` parses to the empty result. -/
theorem C4_witness : a_iterate (str "a bc") [] = .ok [] :=
  C4_no_tags (str "a bc") [] (by decide)

/-- C8: the two parser versions diverge on `"<>"`-convention input: on
`"<>X</>"` version 1 returns `["X"]` while version 2 (end-tag width
`len("</ent>")`, `"<ent>"`-based stripping) returns `["<>X</>"]`. -/
theorem C8_versions_diverge :
    a_iterate (str "<>X</>") [] = .ok [str "X"] ∧
    a_iterate2 (str "<>X</>") [] = .ok [str "<>X</>"] ∧
    a_iterate (str "<>X</>") [] ≠ a_iterate2 (str "<>X</>") [] := by
  refine ⟨by decide, by decide, by decide⟩

/-! Step equations for `a_check_step`, and an exhaustive case analysis. -/

lemma a_check_step_oob (astr : List Char) (i : Nat) (st : ACheckSt)
    (hg : astr[i]? = none) : a_check_step astr i st = some st := by
  unfold a_check_step; rw [hg]

lemma a_check_step_skip (astr : List Char) (i : Nat) (st : ACheckSt) (c : Char)
    (hg : astr[i]? = some c) (hc : c ≠ '<') : a_check_step astr i st = some st := by
  unfold a_check_step; rw [hg]; simp [hc]

lemma a_check_step_bgn (astr : List Char) (i : Nat) (st : ACheckSt) (c2 : Char)
    (hg : astr[i]? = some '<') (hg2 : astr[i+1]? = some c2) (hc2 : c2 ≠ '/') :
    a_check_step astr i st =
      some ⟨st.entL, st.cBgn + 1, if st.cBgn = 0 then i else st.iBgn,
            st.cEnd, st.iEnd⟩ := by
  unfold a_check_step; rw [hg]; simp [hg2, hc2]

lemma a_check_step_emit (astr : List Char) (i : Nat) (st : ACheckSt)
    (hg : astr[i]? = some '<') (hg2 : astr[i+1]? = some '/')
    (he : st.cEnd + 1 = st.cBgn) :
    a_check_step astr i st =
      some ⟨st.entL ++ [pySlice astr st.iBgn (i + 3)], 0, 0, 0, 0⟩ := by
  unfold a_check_step; rw [hg]; simp [hg2, he]

lemma a_check_step_end (astr : List Char) (i : Nat) (st : ACheckSt)
    (hg : astr[i]? = some '<') (hg2 : astr[i+1]? = some '/')
    (he : st.cEnd + 1 ≠ st.cBgn) :
    a_check_step astr i st =
      some ⟨st.entL, st.cBgn, st.iBgn, st.cEnd + 1, st.iEnd⟩ := by
  unfold a_check_step; rw [hg]; simp [hg2, he]

lemma a_check_step_cases (astr : List Char) (i : Nat) (st st2 : ACheckSt)
    (h : a_check_step astr i st = some st2) :
    (st2 = st ∧ (astr[i]? = none ∨ ∃ c, astr[i]? = some c ∧ c ≠ '<'))
    ∨ (∃ c2, astr[i]? = some '<' ∧ astr[i+1]? = some c2 ∧ c2 ≠ '/' ∧
        st2 = ⟨st.entL, st.cBgn + 1, if st.cBgn = 0 then i else st.iBgn,
               st.cEnd, st.iEnd⟩)
    ∨ (astr[i]? = some '<' ∧ astr[i+1]? = some '/' ∧ st.cEnd + 1 = st.cBgn ∧
        st2 = ⟨st.entL ++ [pySlice astr st.iBgn (i + 3)], 0, 0, 0, 0⟩)
    ∨ (astr[i]? = some '<' ∧ astr[i+1]? = some '/' ∧ st.cEnd + 1 ≠ st.cBgn ∧
        st2 = ⟨st.entL, st.cBgn, st.iBgn, st.cEnd + 1, st.iEnd⟩) := by
  cases hg : astr[i]? with
  | none =>
    rw [a_check_step_oob astr i st hg] at h
    simp only [Option.some.injEq] at h
    exact Or.inl ⟨h.symm, Or.inl rfl⟩
  | some c =>
    by_cases hc : c = '<'
    · subst hc
      cases hg2 : astr[i+1]? with
      | none =>
        exfalso
        rw [(a_check_step_none_iff astr i st).mpr ⟨hg, hg2⟩] at h
        exact Option.noConfusion h
      | some c2 =>
        by_cases hc2 : c2 = '/'
        · subst hc2
          by_cases he : st.cEnd + 1 = st.cBgn
          · rw [a_check_step_emit astr i st hg hg2 he] at h
            simp only [Option.some.injEq] at h
            exact Or.inr (Or.inr (Or.inl ⟨rfl, rfl, he, h.symm⟩))
          · rw [a_check_step_end astr i st hg hg2 he] at h
            simp only [Option.some.injEq] at h
            exact Or.inr (Or.inr (Or.inr ⟨rfl, rfl, he, h.symm⟩))
        · rw [a_check_step_bgn astr i st c2 hg hg2 hc2] at h
          simp only [Option.some.injEq] at h
          exact Or.inr (Or.inl ⟨c2, rfl, rfl, hc2, h.symm⟩)
    · rw [a_check_step_skip astr i st c hg hc] at h
      simp only [Option.some.injEq] at h
      exact Or.inl ⟨h.symm, Or.inr ⟨c, rfl, hc⟩⟩

/-! Scan invariant: every emitted span is a nonempty slice of the input;
all spans after the first are strictly shorter than the input; a
full-length head span blocks any further emission. -/

lemma pySlice_length (s : List Char) (a b : Nat) :
    (pySlice s a b).length = min (b - a) (s.length - a) := by
  simp [pySlice]

/-- After a full-length span has been emitted, no further emission can
occur: the begin counter is zero and at most the last two characters
remain (the first of them being the `'/'` of the emitting end tag). -/
def Blocked (astr : List Char) (i : Nat) (st : ACheckSt) : Prop :=
  st.cBgn = 0 ∧
    (astr.length ≤ i + 1 ∨ (i + 2 = astr.length ∧ astr[i]? = some '/'))

/-- Invariant of the `a_check` scan at position `i`. -/
def ScanInv (astr : List Char) (i : Nat) (st : ACheckSt) : Prop :=
  (∀ sp ∈ st.entL, sp ≠ [] ∧ sp.length ≤ astr.length)
  ∧ (∀ sp ∈ st.entL.tail, sp.length < astr.length)
  ∧ (∀ sp, st.entL.head? = some sp →
      sp.length < astr.length ∨ (st.entL.length = 1 ∧ Blocked astr i st))
  ∧ (1 ≤ st.cBgn → st.iBgn < i)
  ∧ (1 ≤ st.cBgn → st.iBgn = 0 → st.entL = [])
  ∧ (st.entL ≠ [] → 1 ≤ i)

lemma blocked_mono (astr : List Char) (i : Nat) (st : ACheckSt)
    (h : Blocked astr i st) : Blocked astr (i+1) st := by
  obtain ⟨h0, h1 | ⟨h2, _⟩⟩ := h
  · exact ⟨h0, Or.inl (by omega)⟩
  · exact ⟨h0, Or.inl (by omega)⟩

lemma scanInv_mono (astr : List Char) (i : Nat) (st : ACheckSt)
    (hinv : ScanInv astr i st) : ScanInv astr (i+1) st := by
  obtain ⟨h1, h2, h3, h4, h5, h6⟩ := hinv
  refine ⟨h1, h2, fun sp hsp => ?_, fun hb => ?_, h5, fun _ => by omega⟩
  · rcases h3 sp hsp with hs | ⟨hl, hb⟩
    · exact Or.inl hs
    · exact Or.inr ⟨hl, blocked_mono astr i st hb⟩
  · exact lt_trans (h4 hb) (by omega)


lemma a_check_step_inv (astr : List Char) (i : Nat) (st st2 : ACheckSt)
    (h : a_check_step astr i st = some st2) (hinv : ScanInv astr i st) :
    ScanInv astr (i+1) st2 := by
  rcases a_check_step_cases astr i st st2 h with
    ⟨heq, _⟩ | ⟨c2, hg, hg2, hc2, heq⟩ | ⟨hg, hg2, he, heq⟩ | ⟨hg, hg2, he, heq⟩
  · rw [heq]; exact scanInv_mono astr i st hinv
  · -- begin tag
    obtain ⟨h1, h2, h3, h4, h5, h6⟩ := hinv
    have hi : i < astr.length := (List.getElem?_eq_some.mp hg).1
    subst heq
    dsimp only [ScanInv]
    refine ⟨h1, h2, fun sp hsp => ?_, fun _ => ?_, fun _ hib => ?_, fun _ => by omega⟩
    · rcases h3 sp hsp with hs | ⟨_, hb⟩
      · exact Or.inl hs
      · exfalso
        rcases hb with ⟨_, hpos | ⟨hpos, hsl⟩⟩
        · rw [List.getElem?_eq_none (by omega)] at hg2
          exact Option.noConfusion hg2
        · rw [hg] at hsl
          simp at hsl
    · by_cases hb0 : st.cBgn = 0
      · rw [if_pos hb0]; omega
      · rw [if_neg hb0]
        exact lt_trans (h4 (by omega)) (by omega)
    · by_cases hb0 : st.cBgn = 0
      · rw [if_pos hb0] at hib
        subst hib
        by_contra hne2
        exact absurd (h6 hne2) (by omega)
      · rw [if_neg hb0] at hib
        exact h5 (by omega) hib
  · -- emitting end tag
    obtain ⟨h1, h2, h3, h4, h5, h6⟩ := hinv
    have hi : i < astr.length := (List.getElem?_eq_some.mp hg).1
    have hcB : 1 ≤ st.cBgn := by omega
    have hiB : st.iBgn < i := h4 hcB
    have hlen : (pySlice astr st.iBgn (i + 3)).length =
        min (i + 3 - st.iBgn) (astr.length - st.iBgn) := pySlice_length astr _ _
    have hne : pySlice astr st.iBgn (i + 3) ≠ [] :=
      List.ne_nil_of_length_pos (by omega)
    have hle : (pySlice astr st.iBgn (i + 3)).length ≤ astr.length := by omega
    subst heq
    dsimp only [ScanInv]
    refine ⟨?_, ?_, ?_, fun hb => by omega, fun hb => absurd hb (by omega),
      fun _ => by omega⟩
    · intro sp hsp
      rcases List.mem_append.mp hsp with hm | hm
      · exact h1 sp hm
      · rw [List.mem_singleton.mp hm]; exact ⟨hne, hle⟩
    · intro sp hsp
      rcases hE : st.entL with _ | ⟨e, rest⟩
      · rw [hE] at hsp; simp at hsp
      · rw [hE] at hsp
        simp only [List.cons_append, List.tail_cons] at hsp
        rcases List.mem_append.mp hsp with hm | hm
        · exact h2 sp (by rw [hE]; exact hm)
        · have hib1 : st.iBgn ≠ 0 := fun hib0 => by
            rw [h5 hcB hib0] at hE; exact List.noConfusion hE
          rw [List.mem_singleton.mp hm]
          omega
    · intro sp hsp
      rcases hE : st.entL with _ | ⟨e, rest⟩
      · rw [hE] at hsp
        simp only [List.nil_append, List.head?_cons, Option.some.injEq] at hsp
        subst hsp
        by_cases hslen : (pySlice astr st.iBgn (i + 3)).length < astr.length
        · exact Or.inl hslen
        · right
          have hib0 : st.iBgn = 0 := by omega
          have hi3 : astr.length ≤ i + 3 := by omega
          refine ⟨rfl, rfl, ?_⟩
          by_cases h12 : astr.length ≤ i + 2
          · exact Or.inl (by omega)
          · exact Or.inr ⟨by omega, hg2⟩
      · rw [hE] at hsp
        simp only [List.cons_append, List.head?_cons, Option.some.injEq] at hsp
        subst hsp
        rcases h3 e (by rw [hE]; rfl) with hs | ⟨_, hb⟩
        · exact Or.inl hs
        · exact absurd hb.1 (by omega)
  · -- non-emitting end tag
    obtain ⟨h1, h2, h3, h4, h5, h6⟩ := hinv
    subst heq
    dsimp only [ScanInv]
    refine ⟨h1, h2, fun sp hsp => ?_, fun hb => ?_, fun hb hib => h5 hb hib,
      fun _ => by omega⟩
    · rcases h3 sp hsp with hs | ⟨hl, hb⟩
      · exact Or.inl hs
      · exact Or.inr ⟨hl, blocked_mono astr i st hb⟩
    · exact lt_trans (h4 hb) (by omega)

lemma a_check_loop_inv (astr : List Char) :
    ∀ k i st st2, a_check_loop astr i k st = some st2 → ScanInv astr i st →
      ScanInv astr (i + k) st2 := by
  intro k
  induction k with
  | zero =>
    intro i st st2 h hinv
    simp only [a_check_loop, Option.some.injEq] at h
    subst h
    simpa using hinv
  | succ k ih =>
    intro i st st2 h hinv
    cases hstep : a_check_step astr i st with
    | none => rw [a_check_loop, hstep] at h; exact Option.noConfusion h
    | some stm =>
      rw [a_check_loop, hstep] at h
      have hrec := ih (i+1) stm st2 h (a_check_step_inv astr i st stm hstep hinv)
      have harith : i + 1 + k = i + (k + 1) := by omega
      rwa [harith] at hrec

lemma scanInv_init (astr : List Char) : ScanInv astr 0 initSt := by
  refine ⟨?_, ?_, ?_, ?_, ?_, ?_⟩ <;> simp [initSt]

/-- Every span list returned by `a_check` consists of nonempty slices no
longer than the input; and if there is not exactly one span, every span
is strictly shorter than the input. -/
lemma a_check_spans_props (astr : List Char) (spans : List (List Char))
    (h : a_check astr = some spans) :
    (∀ sp ∈ spans, sp ≠ [] ∧ sp.length ≤ astr.length) ∧
    (spans.length ≠ 1 → ∀ sp ∈ spans, sp.length < astr.length) := by
  unfold a_check at h
  cases hloop : a_check_loop astr 0 astr.length initSt with
  | none => rw [hloop] at h; exact Option.noConfusion h
  | some stF =>
    rw [hloop] at h
    simp only [Option.map_some', Option.some.injEq] at h
    have hinv := a_check_loop_inv astr astr.length 0 initSt stF hloop
      (scanInv_init astr)
    obtain ⟨h1, h2, h3, _, _, _⟩ := hinv
    subst h
    refine ⟨h1, fun hlen sp hsp => ?_⟩
    rcases hE : stF.entL with _ | ⟨e, rest⟩
    · rw [hE] at hsp; simp at hsp
    · rw [hE] at hsp
      cases hsp with
      | head =>
        rcases h3 sp (by rw [hE]; rfl) with hs | ⟨hl, _⟩
        · exact hs
        · exact absurd hl hlen
      | tail b hm => exact h2 sp (by rw [hE]; exact hm)

/-! Shrinking of `strip_outer`, unfolding equations for `a_iterateF`,
and termination of the recursion. -/

lemma pyRfind_le (s : List Char) (c : Char) :
    pyRfind s c ≤ (s.length : Int) - 1 := by
  unfold pyRfind
  split
  · omega
  · omega

lemma pySliceI_length_lt (s : List Char) (a b : Int) (hn : 1 ≤ s.length)
    (hb : b ≤ (s.length : Int) - 1) : (pySliceI s a b).length < s.length := by
  unfold pySliceI
  dsimp only
  rw [List.length_take, List.length_drop]
  split_ifs <;> omega

lemma strip_outer_length (s : List Char) (hs : s ≠ []) :
    (strip_outer s).length < s.length := by
  have hn : 1 ≤ s.length := List.length_pos.mpr hs
  exact pySliceI_length_lt s _ _ hn (pyRfind_le s '<')

/-- The loop body of `a_iterate`'s sibling-span iteration. -/
def iterStep (f : Nat) (r : IterResult) (sp : List Char) : IterResult :=
  match r with
  | .ok acc => a_iterateF f sp acc
  | r => r

lemma a_iterateF_succ_none (f : Nat) (astr : List Char) (alist : List (List Char))
    (hc : a_check astr = none) : a_iterateF (f+1) astr alist = .fault := by
  simp [a_iterateF, hc]

lemma a_iterateF_succ_single (f : Nat) (astr : List Char) (alist : List (List Char))
    (sp : List Char) (hc : a_check astr = some [sp]) :
    a_iterateF (f+1) astr alist =
      a_iterateF f (strip_outer sp) (strip_tags sp alist) := by
  simp [a_iterateF, hc]

lemma a_iterateF_succ_multi (f : Nat) (astr : List Char) (alist : List (List Char))
    (spans : List (List Char)) (hc : a_check astr = some spans)
    (hlen : spans.length ≠ 1) :
    a_iterateF (f+1) astr alist = spans.foldl (iterStep f) (.ok alist) := by
  have he : (fun (r : IterResult) (sp : List Char) =>
      match r with
      | IterResult.ok acc => a_iterateF f sp acc
      | r => r) = iterStep f := by
    funext r sp; cases r <;> rfl
  rcases spans with _ | ⟨sp, _ | ⟨sp2, rest⟩⟩
  · simp only [a_iterateF, hc]; rw [he]
  · simp at hlen
  · simp only [a_iterateF, hc]; rw [he]

lemma singleton_of_length_one (spans : List (List Char))
    (h1 : spans.length = 1) : ∃ sp, spans = [sp] := by
  rcases spans with _ | ⟨sp, _ | ⟨sp2, rest⟩⟩
  · simp at h1
  · exact ⟨sp, rfl⟩
  · simp at h1

lemma iter_fold_fault (f : Nat) :
    ∀ spans : List (List Char), spans.foldl (iterStep f) .fault = .fault := by
  intro spans
  induction spans with
  | nil => rfl
  | cons sp rest ih => simpa [iterStep] using ih

lemma iter_fold_fuelOut (f : Nat) :
    ∀ spans : List (List Char), spans.foldl (iterStep f) .fuelOut = .fuelOut := by
  intro spans
  induction spans with
  | nil => rfl
  | cons sp rest ih => simpa [iterStep] using ih

lemma iter_fold_no_fuelOut (f : Nat) :
    ∀ (spans alist : List (List Char)),
      (∀ sp ∈ spans, ∀ acc, a_iterateF f sp acc ≠ .fuelOut) →
      spans.foldl (iterStep f) (.ok alist) ≠ .fuelOut := by
  intro spans
  induction spans with
  | nil => intro alist _; simp
  | cons sp rest ih =>
    intro alist h
    rw [List.foldl_cons]
    cases hr : a_iterateF f sp alist with
    | ok acc2 =>
      have hstep : iterStep f (.ok alist) sp = .ok acc2 := by simp [iterStep, hr]
      rw [hstep]
      exact ih acc2 (fun sp2 h2 acc => h sp2 (List.mem_cons_of_mem sp h2) acc)
    | fault =>
      have hstep : iterStep f (.ok alist) sp = .fault := by simp [iterStep, hr]
      rw [hstep, iter_fold_fault]
      simp
    | fuelOut => exact absurd hr (h sp (List.mem_cons_self sp rest) alist)

lemma a_iterateF_no_fuelOut :
    ∀ (f : Nat) (astr : List Char) (alist : List (List Char)),
      astr.length < f → a_iterateF f astr alist ≠ .fuelOut := by
  intro f
  induction f with
  | zero => intro astr alist h; omega
  | succ f ih =>
    intro astr alist hlt
    cases hc : a_check astr with
    | none => simp [a_iterateF_succ_none f astr alist hc]
    | some spans =>
      obtain ⟨hp1, hp2⟩ := a_check_spans_props astr spans hc
      by_cases h1 : spans.length = 1
      · obtain ⟨sp, rfl⟩ := singleton_of_length_one spans h1
        rw [a_iterateF_succ_single f astr alist sp hc]
        apply ih
        have hsp := hp1 sp (by simp)
        have hso := strip_outer_length sp hsp.1
        omega
      · rw [a_iterateF_succ_multi f astr alist spans hc h1]
        have hshort := hp2 h1
        exact iter_fold_no_fuelOut f spans alist
          (fun sp hsp acc => ih sp acc (by have := hshort sp hsp; omega))

/-- C10: the recursion of `a_iterate` terminates: every span returned by
the scan in the multi-span branch is strictly shorter than the input,
`strip_outer` strictly shrinks every nonempty string, and consequently
the fuel `astr.length + 1` used by `a_iterate` never runs out. -/
theorem C10_termination :
    (∀ astr spans, a_check astr = some spans → spans.length ≠ 1 →
      ∀ sp ∈ spans, sp.length < astr.length) ∧
    (∀ s : List Char, s ≠ [] → (strip_outer s).length < s.length) ∧
    (∀ astr alist, a_iterate astr alist ≠ .fuelOut) :=
  ⟨fun astr spans hc h1 => (a_check_spans_props astr spans hc).2 h1,
   fun s hs => strip_outer_length s hs,
   fun astr alist => a_iterateF_no_fuelOut (astr.length + 1) astr alist (by omega)⟩

/-- C10 witness: the termination bounds evaluated at concrete inputs. -/
theorem C10_termination_witness :
    (str "<>X</>").length < (str "<>X</> <>Y</>").length ∧
    (strip_outer (str "<>X</>")).length < (str "<>X</>").length ∧
    a_iterate (str "<") [] ≠ .fuelOut :=
  ⟨C10_termination.1 (str "<>X</> <>Y</>") [str "<>X</>", str "<>Y</>"]
      (by decide) (by decide) (str "<>X</>") (by decide),
   C10_termination.2.1 (str "<>X</>") (by decide),
   C10_termination.2.2 (str "<") []⟩

/-! Accumulator-prefix (frame) property and fuel stability. -/

lemma iter_fold_prefix_acc (f : Nat)
    (hf : ∀ astr alist l, a_iterateF f astr alist = .ok l → alist <+: l) :
    ∀ (spans alist l : List (List Char)),
      spans.foldl (iterStep f) (.ok alist) = .ok l → alist <+: l := by
  intro spans
  induction spans with
  | nil =>
    intro alist l h
    simp only [List.foldl_nil, IterResult.ok.injEq] at h
    exact h ▸ List.prefix_rfl
  | cons sp rest ih =>
    intro alist l h
    rw [List.foldl_cons] at h
    cases hr : a_iterateF f sp alist with
    | ok acc2 =>
      have hstep : iterStep f (.ok alist) sp = .ok acc2 := by simp [iterStep, hr]
      rw [hstep] at h
      exact (hf sp alist acc2 hr).trans (ih acc2 l h)
    | fault =>
      have hstep : iterStep f (.ok alist) sp = .fault := by simp [iterStep, hr]
      rw [hstep, iter_fold_fault] at h
      exact IterResult.noConfusion h
    | fuelOut =>
      have hstep : iterStep f (.ok alist) sp = .fuelOut := by simp [iterStep, hr]
      rw [hstep, iter_fold_fuelOut] at h
      exact IterResult.noConfusion h

lemma a_iterateF_prefix_acc :
    ∀ (f : Nat) (astr : List Char) (alist l : List (List Char)),
      a_iterateF f astr alist = .ok l → alist <+: l := by
  intro f
  induction f with
  | zero => intro astr alist l h; exact absurd h (by simp [a_iterateF])
  | succ f ih =>
    intro astr alist l h
    cases hc : a_check astr with
    | none =>
      rw [a_iterateF_succ_none f astr alist hc] at h
      exact IterResult.noConfusion h
    | some spans =>
      by_cases h1 : spans.length = 1
      · obtain ⟨sp, rfl⟩ := singleton_of_length_one spans h1
        rw [a_iterateF_succ_single f astr alist sp hc] at h
        exact (List.prefix_append alist [detag sp]).trans (ih _ _ _ h)
      · rw [a_iterateF_succ_multi f astr alist spans hc h1] at h
        exact iter_fold_prefix_acc f ih spans alist l h

/-- C9: the parser only ever appends finished results: for every input
string and every starting accumulator, a successful run of `a_iterate`
returns a list that has the starting accumulator as a prefix. -/
theorem C9_accumulator_prefix (astr : List Char) (alist l : List (List Char))
    (h : a_iterate astr alist = .ok l) : alist <+: l :=
  a_iterateF_prefix_acc (astr.length + 1) astr alist l h

/-- C9 witness: a seeded accumulator survives as a prefix on `"<>X</>"`. -/
theorem C9_accumulator_prefix_witness :
    [str "seed"] <+: [str "seed", str "X"] :=
  C9_accumulator_prefix (str "<>X</>") [str "seed"] [str "seed", str "X"]
    (by decide)

lemma iter_fold_congr (f g : Nat) :
    ∀ spans : List (List Char),
      (∀ sp ∈ spans, ∀ acc, a_iterateF f sp acc = a_iterateF g sp acc) →
      ∀ r, spans.foldl (iterStep f) r = spans.foldl (iterStep g) r := by
  intro spans
  induction spans with
  | nil => intro _ r; rfl
  | cons sp rest ih =>
    intro h r
    rw [List.foldl_cons, List.foldl_cons]
    have hstep : iterStep f r sp = iterStep g r sp := by
      cases r with
      | ok acc => simpa [iterStep] using h sp (by simp) acc
      | fault => rfl
      | fuelOut => rfl
    rw [hstep]
    exact ih (fun sp2 h2 acc => h sp2 (by simp [h2]) acc) _

/-- The result of `a_iterateF` does not depend on the fuel, as long as
the fuel exceeds the length of the input string. -/
lemma a_iterateF_stable :
    ∀ (f g : Nat) (astr : List Char) (alist : List (List Char)),
      astr.length < f → astr.length < g →
      a_iterateF f astr alist = a_iterateF g astr alist := by
  intro f
  induction f with
  | zero => intro g astr alist h _; omega
  | succ f ih =>
    intro g astr alist hf hg
    obtain ⟨g2, rfl⟩ : ∃ g2, g = g2 + 1 := ⟨g - 1, by omega⟩
    cases hc : a_check astr with
    | none =>
      rw [a_iterateF_succ_none f astr alist hc, a_iterateF_succ_none g2 astr alist hc]
    | some spans =>
      obtain ⟨hp1, hp2⟩ := a_check_spans_props astr spans hc
      by_cases h1 : spans.length = 1
      · obtain ⟨sp, rfl⟩ := singleton_of_length_one spans h1
        rw [a_iterateF_succ_single f astr alist sp hc,
            a_iterateF_succ_single g2 astr alist sp hc]
        have hsp := hp1 sp (by simp)
        have hso := strip_outer_length sp hsp.1
        exact ih g2 _ _ (by omega) (by omega)
      · rw [a_iterateF_succ_multi f astr alist spans hc h1,
            a_iterateF_succ_multi g2 astr alist spans hc h1]
        have hshort := hp2 h1
        exact iter_fold_congr f g2 spans
          (fun sp hsp acc => ih g2 sp acc
            (by have := hshort sp hsp; omega) (by have := hshort sp hsp; omega))
          (.ok alist)

/-- C3 counterexample: the balanced input `"<>X</> <>Y</>"` yields the
non-empty result `["X", "Y"]`, but de-tagging its first element gives
`"X"`, which differs from the de-tagged whole input `"X Y"`. -/
theorem C3_cex :
    parse (str "<>X</> <>Y</>") = .ok [str "X", str "Y"] ∧
    detag (str "X") ≠ detag (str "<>X</> <>Y</>") :=
  ⟨by decide, by decide⟩

/-- C3 amended: whenever the top-level scan returns the whole input as
its single span and the iteration completes, the first element of the
result is the whole input with all tag markers stripped in one pass
(`detag`). -/
theorem C3_head_detag (astr : List Char) (l : List (List Char))
    (hc : a_check astr = some [astr])
    (h : a_iterate astr [] = .ok l) :
    l.head? = some (detag astr) := by
  unfold a_iterate at h
  rw [a_iterateF_succ_single astr.length astr [] astr hc] at h
  have hp := a_iterateF_prefix_acc _ _ _ _ h
  obtain ⟨t, ht⟩ := hp
  rw [← ht]
  rfl

/-- C3 witness: for `"<>X</>"` the head of the parse result is the
de-tagged whole input. -/
theorem C3_head_detag_witness :
    ([str "X"] : List (List Char)).head? = some (detag (str "<>X</>")) :=
  C3_head_detag (str "<>X</>") [str "X"] (by decide) (by decide)

/-! Transporting a completed scan of a prefix to a longer string: as long
as the prefix does not end in the truncated end tag `"</"`, the scan of
the prefix's indices behaves identically on any extension. -/

lemma getElem?_append_left_lt (l1 l2 : List Char) (i : Nat) (h : i < l1.length) :
    (l1 ++ l2)[i]? = l1[i]? := by
  rw [List.getElem?_append, if_pos h]

lemma a_check_step_transport (p s : List Char) (hsuf : ¬ ['<', '/'] <:+ p)
    (i : Nat) (st st2 : ACheckSt) (hi : i < p.length) (hinv : ScanInv p i st)
    (h : a_check_step p i st = some st2) :
    a_check_step (p ++ s) i st = some st2 := by
  have hgi : (p ++ s)[i]? = p[i]? := getElem?_append_left_lt p s i hi
  rcases a_check_step_cases p i st st2 h with
    ⟨heq, hcase⟩ | ⟨c2, hg, hg2, hc2, heq⟩ | ⟨hg, hg2, he, heq⟩ | ⟨hg, hg2, he, heq⟩
  · rcases hcase with hnone | ⟨c, hg, hc⟩
    · exfalso
      rw [List.getElem?_eq_none_iff] at hnone
      omega
    · rw [heq]
      exact a_check_step_skip (p ++ s) i st c (by rw [hgi]; exact hg) hc
  · have hi2 : i + 1 < p.length := (List.getElem?_eq_some.mp hg2).1
    have hgi2 : (p ++ s)[i+1]? = p[i+1]? := getElem?_append_left_lt p s (i+1) hi2
    rw [heq]
    exact a_check_step_bgn (p ++ s) i st c2 (by rw [hgi]; exact hg)
      (by rw [hgi2]; exact hg2) hc2
  · -- emitting end tag: the slice stays inside the prefix
    have hi2 : i + 1 < p.length := (List.getElem?_eq_some.mp hg2).1
    have hgi2 : (p ++ s)[i+1]? = p[i+1]? := getElem?_append_left_lt p s (i+1) hi2
    have hi3 : i + 3 ≤ p.length := by
      by_contra hcon
      apply hsuf
      have hdrop : p.drop i = ['<', '/'] := by
        apply List.ext_getElem?
        intro n
        match n with
        | 0 => rw [List.getElem?_drop]; simpa using hg
        | 1 => rw [List.getElem?_drop]; simpa using hg2
        | n + 2 =>
          rw [List.getElem?_drop]
          rw [List.getElem?_eq_none (by omega)]
          simp
      exact ⟨p.take i, by rw [← hdrop, List.take_append_drop]⟩
    have hib : st.iBgn < i := hinv.2.2.2.1 (by omega)
    have hslice : pySlice (p ++ s) st.iBgn (i + 3) = pySlice p st.iBgn (i + 3) := by
      unfold pySlice
      rw [List.drop_append_of_le_length (by omega)]
      rw [List.take_append_of_le_length (by simp; omega)]
    rw [heq]
    have := a_check_step_emit (p ++ s) i st (by rw [hgi]; exact hg)
      (by rw [hgi2]; exact hg2) he
    rw [hslice] at this
    exact this
  · rw [heq]
    exact a_check_step_end (p ++ s) i st (by rw [hgi]; exact hg)
      (by rw [getElem?_append_left_lt p s (i+1) (List.getElem?_eq_some.mp hg2).1]
          exact hg2) he

lemma a_check_loop_transport (p s : List Char) (hsuf : ¬ ['<', '/'] <:+ p) :
    ∀ k i st stF, i + k = p.length → ScanInv p i st →
      a_check_loop p i k st = some stF →
      a_check_loop (p ++ s) i k st = some stF := by
  intro k
  induction k with
  | zero => intro i st stF _ _ h; exact h
  | succ k ih =>
    intro i st stF hik hinv h
    cases hstep : a_check_step p i st with
    | none => rw [a_check_loop, hstep] at h; exact Option.noConfusion h
    | some stm =>
      rw [a_check_loop, hstep] at h
      have hstep2 := a_check_step_transport p s hsuf i st stm (by omega) hinv hstep
      rw [a_check_loop, hstep2]
      exact ih (i+1) stm stF (by omega)
        (a_check_step_inv p i st stm hstep hinv) h

lemma getElem?_append_right_idx (l1 l2 : List Char) (j : Nat) :
    (l1 ++ l2)[l1.length + j]? = l2[j]? := by
  rw [List.getElem?_append_right (by omega)]
  congr 1
  omega

/-- Appending an unmatched begin tag `"<>"` followed by `'<'`-free text
to a scannable prefix leaves the scan's emitted span list unchanged. -/
lemma a_check_append_unmatched (p t : List Char) (spans : List (List Char))
    (hsuf : ¬ ['<', '/'] <:+ p) (ht : ∀ c ∈ t, c ≠ '<')
    (hc : a_check p = some spans) :
    a_check (p ++ '<' :: '>' :: t) = some spans := by
  unfold a_check at hc ⊢
  cases hloop : a_check_loop p 0 p.length initSt with
  | none => rw [hloop] at hc; exact Option.noConfusion hc
  | some stF =>
    rw [hloop] at hc
    simp only [Option.map_some', Option.some.injEq] at hc
    have htrans := a_check_loop_transport p ('<' :: '>' :: t) hsuf p.length 0
      initSt stF (by omega) (scanInv_init p) hloop
    have hg0 : (p ++ '<' :: '>' :: t)[p.length]? = some '<' := by
      have := getElem?_append_right_idx p ('<' :: '>' :: t) 0
      simpa using this
    have hg1 : (p ++ '<' :: '>' :: t)[p.length + 1]? = some '>' := by
      have := getElem?_append_right_idx p ('<' :: '>' :: t) 1
      simpa using this
    have hlen : (p ++ '<' :: '>' :: t).length = p.length + (1 + (1 + t.length)) := by
      simp
      omega
    rw [hlen, a_check_loop_add (p ++ '<' :: '>' :: t) p.length (1 + (1 + t.length))
      0 initSt]
    rw [htrans]
    simp only [Option.some_bind, Nat.zero_add]
    rw [a_check_loop_add (p ++ '<' :: '>' :: t) 1 (1 + t.length) p.length stF]
    have hstep0 := a_check_step_bgn (p ++ '<' :: '>' :: t) p.length stF '>'
      hg0 hg1 (by decide)
    have hone : a_check_loop (p ++ '<' :: '>' :: t) p.length 1 stF =
        some ⟨stF.entL, stF.cBgn + 1,
          if stF.cBgn = 0 then p.length else stF.iBgn, stF.cEnd, stF.iEnd⟩ := by
      rw [a_check_loop, hstep0]
      rfl
    rw [hone]
    simp only [Option.some_bind]
    rw [a_check_loop_add (p ++ '<' :: '>' :: t) 1 t.length (p.length + 1) _]
    have hstep1 := a_check_step_skip (p ++ '<' :: '>' :: t) (p.length + 1)
      ⟨stF.entL, stF.cBgn + 1,
        if stF.cBgn = 0 then p.length else stF.iBgn, stF.cEnd, stF.iEnd⟩ '>'
      hg1 (by decide)
    rw [show (a_check_loop (p ++ '<' :: '>' :: t) (p.length + 1) 1
        ⟨stF.entL, stF.cBgn + 1,
          if stF.cBgn = 0 then p.length else stF.iBgn, stF.cEnd, stF.iEnd⟩) =
        some ⟨stF.entL, stF.cBgn + 1,
          if stF.cBgn = 0 then p.length else stF.iBgn, stF.cEnd, stF.iEnd⟩ from by
      rw [a_check_loop, hstep1]
      rfl]
    simp only [Option.some_bind]
    rw [a_check_loop_skip (p ++ '<' :: '>' :: t) t.length (p.length + 1 + 1) _
      (fun j hj c hgc => ?_)]
    · simp [hc]
    · have hidx : p.length + 1 + 1 + j = p.length + (2 + j) := by omega
      rw [hidx, getElem?_append_right_idx p ('<' :: '>' :: t) (2 + j)] at hgc
      rw [show 2 + j = j + 2 from by omega] at hgc
      have ht2 : t[j]? = some c := by simpa using hgc
      exact ht c (List.getElem?_mem ht2)

/-- C5 counterexample: the prefix `"<x</"` has equally many scan-level
begin and end tag occurrences and its scan completes, returning the
whole prefix as one span; yet appending the unmatched `"<>"` plus the
tag-free text `"z"` changes the parse, because the emission slice
`astr[iBgn:i+3]` spills into the appended begin tag. -/
theorem C5_cex :
    a_check (str "<x</") = some [str "<x</"] ∧
    a_iterate (str "<x</" ++ '<' :: '>' :: str "z") [] =
      .ok [str "<x</<", str "<x</"] ∧
    a_iterate (str "<x</") [] = .ok [str "<x</"] ∧
    a_iterate (str "<x</" ++ '<' :: '>' :: str "z") [] ≠
      a_iterate (str "<x</") [] :=
  ⟨by decide, by decide, by decide, by decide⟩

/-- C5 amended: for every prefix whose scan completes and which does not
end in the truncated end tag `"</"`, appending an unmatched begin tag
`"<>"` followed by `'<'`-free trailing text leaves both the scan's span
list and the parse result unchanged: the trailing text is silently
absorbed and no span or result entry is emitted for it. -/
theorem C5_unmatched_absorbed (p t : List Char) (spans : List (List Char))
    (hc : a_check p = some spans) (hsuf : ¬ ['<', '/'] <:+ p)
    (ht : ∀ c ∈ t, c ≠ '<') :
    a_check (p ++ '<' :: '>' :: t) = some spans ∧
    a_iterate (p ++ '<' :: '>' :: t) [] = a_iterate p [] := by
  have hq := a_check_append_unmatched p t spans hsuf ht hc
  refine ⟨hq, ?_⟩
  unfold a_iterate
  have hlenq : p.length ≤ (p ++ '<' :: '>' :: t).length := by simp
  by_cases h1 : spans.length = 1
  · obtain ⟨sp, rfl⟩ := singleton_of_length_one spans h1
    rw [a_iterateF_succ_single _ _ _ sp hq, a_iterateF_succ_single _ _ _ sp hc]
    obtain ⟨hp1, _⟩ := a_check_spans_props p [sp] hc
    have hsp := hp1 sp (by simp)
    have hso := strip_outer_length sp hsp.1
    exact a_iterateF_stable _ _ _ _ (by omega) (by omega)
  · rw [a_iterateF_succ_multi _ _ _ spans hq h1,
        a_iterateF_succ_multi _ _ _ spans hc h1]
    obtain ⟨_, hp2⟩ := a_check_spans_props p spans hc
    have hshort := hp2 h1
    exact iter_fold_congr _ _ spans
      (fun sp hsp acc => a_iterateF_stable _ _ sp acc
        (by have := hshort sp hsp; omega) (by have := hshort sp hsp; omega))
      (.ok [])

/-- C5 witness: appending `"<> y"` to the balanced prefix `"<>X</>"`
changes neither the scan nor the parse. -/
theorem C5_unmatched_absorbed_witness :
    a_check (str "<>X</>" ++ '<' :: '>' :: str " y") = some [str "<>X</>"] ∧
    a_iterate (str "<>X</>" ++ '<' :: '>' :: str " y") [] =
      a_iterate (str "<>X</>") [] :=
  C5_unmatched_absorbed (str "<>X</>") (str " y") [str "<>X</>"]
    (by decide) (by decide) (by decide)

/-! Well-formed (balanced) tagged strings: sequences of non-tag
characters and complete `"<>"`...`"</>"` tag pairs, nested arbitrarily. -/

/-- The balanced-tag grammar: empty, a non-`'<'` character followed by
a balanced string, or a complete tag wrapping a balanced string followed
by a balanced string. -/
inductive TagBal : List Char → Prop where
  | nil : TagBal []
  | ch (c : Char) (s : List Char) : c ≠ '<' → TagBal s →
      TagBal (c :: s)
  | tag (a b : List Char) : TagBal a → TagBal b →
      TagBal ('<' :: '>' :: (a ++ '<' :: '/' :: '>' :: b))

lemma getElem?_append_head (pre u : List Char) (c : Char) :
    (pre ++ c :: u)[pre.length]? = some c := by
  have h := getElem?_append_right_idx pre (c :: u) 0
  simpa using h

lemma getElem?_of_decomp (astr pre u : List Char) (c : Char) (i : Nat)
    (hastr : astr = pre ++ c :: u) (hi : i = pre.length) :
    astr[i]? = some c := by
  subst hastr
  subst hi
  exact getElem?_append_head pre u c

lemma a_check_loop_one (astr : List Char) (i : Nat) (st st2 : ACheckSt)
    (h : a_check_step astr i st = some st2) :
    a_check_loop astr i 1 st = some st2 := by
  rw [a_check_loop, h]
  rfl

/-- Scanning a balanced segment from a state with strictly more open
begin tags than end tags emits nothing and advances both counters by the
number of tags in the segment, leaving everything else unchanged. -/
lemma bal_loop (b : List Char) (hb : TagBal b) :
    ∀ (astr pre post : List Char) (st : ACheckSt),
      astr = pre ++ b ++ post → st.cEnd < st.cBgn →
      ∃ tb, a_check_loop astr pre.length b.length st =
        some ⟨st.entL, st.cBgn + tb, st.iBgn, st.cEnd + tb, st.iEnd⟩ := by
  induction hb with
  | nil =>
    intro astr pre post st heq hlt
    refine ⟨0, ?_⟩
    simp [a_check_loop]
  | ch c s hc _ ih =>
    intro astr pre post st heq hlt
    have hg : astr[pre.length]? = some c :=
      getElem?_of_decomp astr pre (s ++ post) c pre.length (by rw [heq]; simp) rfl
    have hstep := a_check_step_skip astr pre.length st c hg hc
    obtain ⟨tb, htb⟩ := ih astr (pre ++ [c]) post st (by rw [heq]; simp) hlt
    refine ⟨tb, ?_⟩
    show a_check_loop astr pre.length (s.length + 1) st = _
    rw [a_check_loop, hstep]
    rw [show (pre ++ [c]).length = pre.length + 1 from by simp] at htb
    exact htb
  | tag x y _ _ ihx ihy =>
    intro astr pre post st heq hlt
    have hcB : 1 ≤ st.cBgn := by omega
    have hg0 : astr[pre.length]? = some '<' :=
      getElem?_of_decomp astr pre ('>' :: (x ++ '<' :: '/' :: '>' :: (y ++ post)))
        '<' pre.length (by rw [heq]; simp) rfl
    have hg1 : astr[pre.length + 1]? = some '>' :=
      getElem?_of_decomp astr (pre ++ ['<']) (x ++ '<' :: '/' :: '>' :: (y ++ post))
        '>' (pre.length + 1) (by rw [heq]; simp)
        (by simp only [List.length_append, List.length_cons, List.length_nil])
    have hstep0 := a_check_step_bgn astr pre.length st '>' hg0 hg1 (by decide)
    rw [if_neg (by omega)] at hstep0
    have hstep1 := a_check_step_skip astr (pre.length + 1)
      ⟨st.entL, st.cBgn + 1, st.iBgn, st.cEnd, st.iEnd⟩ '>' hg1 (by decide)
    have h2 : a_check_loop astr pre.length 2 st =
        some ⟨st.entL, st.cBgn + 1, st.iBgn, st.cEnd, st.iEnd⟩ := by
      rw [show (2:Nat) = 1 + 1 from rfl,
          a_check_loop_add astr 1 1 pre.length st,
          a_check_loop_one astr pre.length st _ hstep0]
      simp only [Option.some_bind]
      exact a_check_loop_one astr (pre.length + 1) _ _ hstep1
    obtain ⟨tx, htx⟩ := ihx astr (pre ++ ['<', '>'])
      ('<' :: '/' :: '>' :: (y ++ post))
      ⟨st.entL, st.cBgn + 1, st.iBgn, st.cEnd, st.iEnd⟩
      (by rw [heq]; simp) (by dsimp; omega)
    rw [show (pre ++ ['<', '>']).length = pre.length + 2 from by
      simp only [List.length_append, List.length_cons, List.length_nil]] at htx
    have hg2 : astr[pre.length + 2 + x.length]? = some '<' :=
      getElem?_of_decomp astr (pre ++ '<' :: '>' :: x)
        ('/' :: '>' :: (y ++ post)) '<' (pre.length + 2 + x.length)
        (by rw [heq]; simp)
        (by simp only [List.length_append, List.length_cons]; omega)
    have hg3 : astr[pre.length + 2 + x.length + 1]? = some '/' :=
      getElem?_of_decomp astr (pre ++ '<' :: '>' :: (x ++ ['<']))
        ('>' :: (y ++ post)) '/' (pre.length + 2 + x.length + 1)
        (by rw [heq]; simp)
        (by simp only [List.length_append, List.length_cons, List.length_nil]; omega)
    have hg4 : astr[pre.length + 2 + x.length + 2]? = some '>' :=
      getElem?_of_decomp astr (pre ++ '<' :: '>' :: (x ++ ['<', '/']))
        (y ++ post) '>' (pre.length + 2 + x.length + 2)
        (by rw [heq]; simp)
        (by simp only [List.length_append, List.length_cons, List.length_nil]; omega)
    have hstepEnd := a_check_step_end astr (pre.length + 2 + x.length)
      ⟨st.entL, st.cBgn + 1 + tx, st.iBgn, st.cEnd + tx, st.iEnd⟩
      hg2 hg3 (by dsimp; omega)
    have hstepSlash := a_check_step_skip astr (pre.length + 2 + x.length + 1)
      ⟨st.entL, st.cBgn + 1 + tx, st.iBgn, st.cEnd + tx + 1, st.iEnd⟩ '/'
      hg3 (by decide)
    have hstepGt := a_check_step_skip astr (pre.length + 2 + x.length + 2)
      ⟨st.entL, st.cBgn + 1 + tx, st.iBgn, st.cEnd + tx + 1, st.iEnd⟩ '>'
      hg4 (by decide)
    have h3 : a_check_loop astr (pre.length + 2 + x.length) 3
        ⟨st.entL, st.cBgn + 1 + tx, st.iBgn, st.cEnd + tx, st.iEnd⟩ =
        some ⟨st.entL, st.cBgn + 1 + tx, st.iBgn, st.cEnd + tx + 1, st.iEnd⟩ := by
      rw [show (3:Nat) = 1 + (1 + 1) from rfl,
          a_check_loop_add astr 1 (1 + 1) (pre.length + 2 + x.length) _,
          a_check_loop_one astr _ _ _ hstepEnd]
      simp only [Option.some_bind]
      rw [a_check_loop_add astr 1 1 (pre.length + 2 + x.length + 1) _,
          a_check_loop_one astr _ _ _ hstepSlash]
      simp only [Option.some_bind]
      exact a_check_loop_one astr _ _ _ hstepGt
    obtain ⟨ty, hty⟩ := ihy astr (pre ++ '<' :: '>' :: (x ++ ['<', '/', '>'])) post
      ⟨st.entL, st.cBgn + 1 + tx, st.iBgn, st.cEnd + tx + 1, st.iEnd⟩
      (by rw [heq]; simp) (by dsimp; omega)
    rw [show (pre ++ '<' :: '>' :: (x ++ ['<', '/', '>'])).length =
        pre.length + 2 + x.length + 3 from by
      simp only [List.length_append, List.length_cons, List.length_nil]; omega] at hty
    refine ⟨1 + tx + ty, ?_⟩
    have hk : ('<' :: '>' :: (x ++ '<' :: '/' :: '>' :: y)).length =
        2 + (x.length + (3 + y.length)) := by
      simp only [List.length_append, List.length_cons]
      omega
    rw [hk, a_check_loop_add astr 2 (x.length + (3 + y.length)) pre.length st, h2]
    simp only [Option.some_bind]
    rw [a_check_loop_add astr x.length (3 + y.length) (pre.length + 2) _, htx]
    simp only [Option.some_bind]
    rw [a_check_loop_add astr 3 y.length (pre.length + 2 + x.length) _, h3]
    simp only [Option.some_bind]
    rw [show st.cBgn + 1 + tx + ty = st.cBgn + (1 + tx + ty) from by omega,
        show st.cEnd + tx + 1 + ty = st.cEnd + (1 + tx + ty) from by omega] at hty
    exact hty

/-- Scanning a complete tag `"<>" ++ body ++ "</>"` (with balanced body)
from a fully reset state emits exactly that tag as one span and returns
to the reset state. -/
lemma scan_wrap (body : List Char) (hb : TagBal body) (pre post : List Char)
    (st : ACheckSt) (hB : st.cBgn = 0) (hE : st.cEnd = 0) :
    a_check_loop (pre ++ '<' :: '>' :: (body ++ '<' :: '/' :: '>' :: post))
      pre.length (body.length + 5) st =
    some ⟨st.entL ++ ['<' :: '>' :: (body ++ ['<', '/', '>'])], 0, 0, 0, 0⟩ := by
  obtain ⟨E, cB, iB, cE, iE⟩ := st
  dsimp at hB hE
  subst hB
  subst hE
  have hg0 : (pre ++ '<' :: '>' :: (body ++ '<' :: '/' :: '>' :: post))[pre.length]? =
      some '<' :=
    getElem?_of_decomp _ pre ('>' :: (body ++ '<' :: '/' :: '>' :: post)) '<'
      pre.length rfl rfl
  have hg1 : (pre ++ '<' :: '>' :: (body ++ '<' :: '/' :: '>' :: post))[pre.length + 1]? =
      some '>' :=
    getElem?_of_decomp _ (pre ++ ['<']) (body ++ '<' :: '/' :: '>' :: post) '>'
      (pre.length + 1) (by simp)
      (by simp only [List.length_append, List.length_cons, List.length_nil])
  have hstep0 := a_check_step_bgn
    (pre ++ '<' :: '>' :: (body ++ '<' :: '/' :: '>' :: post)) pre.length
    ⟨E, 0, iB, 0, iE⟩ '>' hg0 hg1 (by decide)
  rw [if_pos rfl] at hstep0
  have hstep1 := a_check_step_skip
    (pre ++ '<' :: '>' :: (body ++ '<' :: '/' :: '>' :: post)) (pre.length + 1)
    ⟨E, 0 + 1, pre.length, 0, iE⟩ '>' hg1 (by decide)
  obtain ⟨tb, htb⟩ := bal_loop body hb
    (pre ++ '<' :: '>' :: (body ++ '<' :: '/' :: '>' :: post))
    (pre ++ ['<', '>']) ('<' :: '/' :: '>' :: post)
    ⟨E, 0 + 1, pre.length, 0, iE⟩ (by simp) (by dsimp; omega)
  rw [show (pre ++ ['<', '>']).length = pre.length + 2 from by
    simp only [List.length_append, List.length_cons, List.length_nil]] at htb
  have hg2 : (pre ++ '<' :: '>' :: (body ++ '<' :: '/' :: '>' :: post))[pre.length + 2 +
      body.length]? = some '<' :=
    getElem?_of_decomp _ (pre ++ '<' :: '>' :: body) ('/' :: '>' :: post) '<'
      (pre.length + 2 + body.length) (by simp)
      (by simp only [List.length_append, List.length_cons]; omega)
  have hg3 : (pre ++ '<' :: '>' :: (body ++ '<' :: '/' :: '>' :: post))[pre.length + 2 +
      body.length + 1]? = some '/' :=
    getElem?_of_decomp _ (pre ++ '<' :: '>' :: (body ++ ['<'])) ('>' :: post) '/'
      (pre.length + 2 + body.length + 1) (by simp)
      (by simp only [List.length_append, List.length_cons, List.length_nil]; omega)
  have hg4 : (pre ++ '<' :: '>' :: (body ++ '<' :: '/' :: '>' :: post))[pre.length + 2 +
      body.length + 2]? = some '>' :=
    getElem?_of_decomp _ (pre ++ '<' :: '>' :: (body ++ ['<', '/'])) post '>'
      (pre.length + 2 + body.length + 2) (by simp)
      (by simp only [List.length_append, List.length_cons, List.length_nil]; omega)
  have hstepE := a_check_step_emit
    (pre ++ '<' :: '>' :: (body ++ '<' :: '/' :: '>' :: post))
    (pre.length + 2 + body.length)
    ⟨E, 0 + 1 + tb, pre.length, 0 + tb, iE⟩ hg2 hg3 (by dsimp; omega)
  have hslice : pySlice (pre ++ '<' :: '>' :: (body ++ '<' :: '/' :: '>' :: post))
      pre.length (pre.length + 2 + body.length + 3) =
      '<' :: '>' :: (body ++ ['<', '/', '>']) := by
    unfold pySlice
    rw [show pre ++ '<' :: '>' :: (body ++ '<' :: '/' :: '>' :: post) =
        pre ++ (('<' :: '>' :: (body ++ ['<', '/', '>'])) ++ post) from by simp]
    rw [List.drop_left pre (('<' :: '>' :: (body ++ ['<', '/', '>'])) ++ post)]
    have hlen5 : ('<' :: '>' :: (body ++ ['<', '/', '>'])).length
        = pre.length + 2 + body.length + 3 - pre.length := by
      simp only [List.length_append, List.length_cons, List.length_nil]
      omega
    exact List.take_left' hlen5
  rw [hslice] at hstepE
  have hstepSlash := a_check_step_skip
    (pre ++ '<' :: '>' :: (body ++ '<' :: '/' :: '>' :: post))
    (pre.length + 2 + body.length + 1)
    ⟨E ++ ['<' :: '>' :: (body ++ ['<', '/', '>'])], 0, 0, 0, 0⟩ '/' hg3 (by decide)
  have hstepGt := a_check_step_skip
    (pre ++ '<' :: '>' :: (body ++ '<' :: '/' :: '>' :: post))
    (pre.length + 2 + body.length + 2)
    ⟨E ++ ['<' :: '>' :: (body ++ ['<', '/', '>'])], 0, 0, 0, 0⟩ '>' hg4 (by decide)
  rw [show body.length + 5 = 2 + (body.length + (1 + (1 + 1))) from by omega]
  rw [a_check_loop_add _ 2 (body.length + (1 + (1 + 1))) pre.length _]
  rw [show (2:Nat) = 1 + 1 from rfl,
      a_check_loop_add _ 1 1 pre.length _,
      a_check_loop_one _ pre.length _ _ hstep0]
  simp only [Option.some_bind]
  rw [a_check_loop_one _ (pre.length + 1) _ _ hstep1]
  simp only [Option.some_bind]
  rw [show pre.length + (1 + 1) = pre.length + 2 from by omega]
  rw [a_check_loop_add _ body.length (1 + (1 + 1)) (pre.length + 2) _, htb]
  simp only [Option.some_bind]
  rw [a_check_loop_add _ 1 (1 + 1) (pre.length + 2 + body.length) _,
      a_check_loop_one _ (pre.length + 2 + body.length) _ _ hstepE]
  simp only [Option.some_bind]
  rw [a_check_loop_add _ 1 1 (pre.length + 2 + body.length + 1) _,
      a_check_loop_one _ (pre.length + 2 + body.length + 1) _ _ hstepSlash]
  simp only [Option.some_bind]
  exact a_check_loop_one _ (pre.length + 2 + body.length + 2) _ _ hstepGt

lemma a_check_single_wrap (body : List Char) (hb : TagBal body) :
    a_check ('<' :: '>' :: (body ++ ['<', '/', '>'])) =
      some ['<' :: '>' :: (body ++ ['<', '/', '>'])] := by
  unfold a_check
  have h := scan_wrap body hb [] [] initSt rfl rfl
  simp only [List.nil_append, List.length_nil] at h
  rw [show ('<' :: '>' :: (body ++ ['<', '/', '>'])).length = body.length + 5 from by
    simp only [List.length_append, List.length_cons, List.length_nil]]
  rw [h]
  rfl

/-- C7: for every well-formed input that is a single tag wrapping a
balanced body, the top-level span scan returns exactly one span: the
entire input string. -/
theorem C7_single_wrap_whole (body : List Char) (hb : TagBal body) :
    a_check ('<' :: '>' :: (body ++ ['<', '/', '>'])) =
      some ['<' :: '>' :: (body ++ ['<', '/', '>'])] :=
  a_check_single_wrap body hb

/-- C7 witness: for the body `"X"`, the scan of `"<>X</>"` returns the
whole input as its only span. -/
theorem C7_single_wrap_whole_witness :
    a_check (str "<>X</>") = some [str "<>X</>"] :=
  C7_single_wrap_whole (str "X") (TagBal.ch 'X' [] (by decide) TagBal.nil)

/-! Characterization of `splitOnSub` needed for `strip_tags` on simple
spans. -/

lemma splitOnSubF_irrel (sep : List Char) :
    ∀ (f g : Nat) (s acc : List Char), s.length ≤ f → s.length ≤ g →
      splitOnSubF sep f s acc = splitOnSubF sep g s acc := by
  intro f
  induction f with
  | zero =>
    intro g s acc hf _
    have hs : s = [] := List.eq_nil_of_length_eq_zero (by omega)
    subst hs
    cases g <;> rfl
  | succ f ih =>
    intro g s acc hf hg
    cases s with
    | nil => cases g <;> rfl
    | cons c rest =>
      have hl : rest.length + 1 ≤ g := by simpa using hg
      obtain ⟨g2, rfl⟩ : ∃ g2, g = g2 + 1 := ⟨g - 1, by omega⟩
      simp only [List.length_cons] at hf
      have hsep : sep ≠ [] → 1 ≤ sep.length := by
        cases sep
        · exact fun h => absurd rfl h
        · exact fun _ => by simp
      by_cases hp : (sep.isPrefixOf (c :: rest) ∧ sep ≠ [])
      · rw [splitOnSubF, splitOnSubF, if_pos hp, if_pos hp]
        congr 1
        apply ih
        · simp only [List.length_drop, List.length_cons]
          have := hsep hp.2
          omega
        · simp only [List.length_drop, List.length_cons]
          have := hsep hp.2
          omega
      · rw [splitOnSubF, splitOnSubF, if_neg hp, if_neg hp]
        apply ih
        · omega
        · omega

lemma splitOnSubF_acc (sep : List Char) :
    ∀ (f : Nat) (s acc : List Char), s.length ≤ f →
      ∃ h t, splitOnSubF sep f s [] = h :: t ∧
        splitOnSubF sep f s acc = (acc.reverse ++ h) :: t := by
  intro f
  induction f with
  | zero =>
    intro s acc hf
    have hs : s = [] := List.eq_nil_of_length_eq_zero (by omega)
    subst hs
    exact ⟨[], [], rfl, by simp [splitOnSubF]⟩
  | succ f ih =>
    intro s acc hf
    cases s with
    | nil => exact ⟨[], [], rfl, by simp [splitOnSubF]⟩
    | cons c rest =>
      have hl : rest.length ≤ f := by simp at hf; omega
      by_cases hp : (sep.isPrefixOf (c :: rest) ∧ sep ≠ [])
      · refine ⟨[], splitOnSubF sep f ((c :: rest).drop sep.length) [], ?_, ?_⟩
        · rw [splitOnSubF, if_pos hp]
          rfl
        · rw [splitOnSubF, if_pos hp]
          simp
      · obtain ⟨h, t, h0, hc⟩ := ih rest [c] hl
        obtain ⟨h2, t2, h02, hca⟩ := ih rest (c :: acc) hl
        rw [h0] at h02
        injection h02 with e1 e2
        subst e1
        subst e2
        refine ⟨c :: h, t, ?_, ?_⟩
        · rw [splitOnSubF, if_neg hp, hc]
          simp
        · rw [splitOnSubF, if_neg hp, hca]
          simp

lemma splitOnSub_cons_neg (sep : List Char) (c : Char) (rest : List Char)
    (hp : ¬ (sep.isPrefixOf (c :: rest) ∧ sep ≠ [])) :
    ∃ h t, splitOnSub sep rest = h :: t ∧
      splitOnSub sep (c :: rest) = (c :: h) :: t := by
  obtain ⟨h, t, h0, hc⟩ := splitOnSubF_acc sep rest.length rest [c] (le_refl _)
  refine ⟨h, t, h0, ?_⟩
  show splitOnSubF sep (rest.length + 1) (c :: rest) [] = _
  rw [splitOnSubF, if_neg hp, hc]
  simp

lemma splitOnSub_cons_pos (sep : List Char) (c : Char) (rest : List Char)
    (hp : sep.isPrefixOf (c :: rest) ∧ sep ≠ []) :
    splitOnSub sep (c :: rest) =
      [] :: splitOnSub sep ((c :: rest).drop sep.length) := by
  show splitOnSubF sep (rest.length + 1) (c :: rest) [] = _
  rw [splitOnSubF, if_pos hp]
  have hsep : 1 ≤ sep.length := by
    cases sep
    · exact absurd rfl hp.2
    · simp
  rw [List.reverse_nil]
  congr 1
  apply splitOnSubF_irrel
  · simp only [List.length_drop, List.length_cons]
    omega
  · exact le_refl _

lemma splitOnSub_tagfree_append (sep : List Char) (hsep0 : sep.head? = some '<') :
    ∀ (x : List Char), (∀ c ∈ x, c ≠ '<') → ∀ r : List Char,
      ∃ h t, splitOnSub sep r = h :: t ∧
        splitOnSub sep (x ++ r) = (x ++ h) :: t := by
  intro x
  induction x with
  | nil =>
    intro _ r
    obtain ⟨h, t, h0, _⟩ := splitOnSubF_acc sep r.length r [] (le_refl _)
    exact ⟨h, t, h0, by simpa using h0⟩
  | cons c x ih =>
    intro hx r
    have hc : c ≠ '<' := hx c (by simp)
    obtain ⟨h, t, h0, hxr⟩ := ih (fun c2 h2 => hx c2 (by simp [h2])) r
    have hp : ¬ (sep.isPrefixOf (c :: (x ++ r)) ∧ sep ≠ []) := by
      rintro ⟨hpre, hne⟩
      cases sep with
      | nil => exact hne rfl
      | cons s0 stail =>
        simp only [List.head?_cons, Option.some.injEq] at hsep0
        rw [List.isPrefixOf] at hpre
        have hs0 : s0 = c := by
          have := (Bool.and_eq_true _ _).mp hpre
          exact eq_of_beq this.1
        exact hc (by rw [← hs0, hsep0])
    obtain ⟨h2, t2, h02, hcons⟩ := splitOnSub_cons_neg sep c (x ++ r) hp
    rw [hxr] at h02
    injection h02 with e1 e2
    subst e1
    subst e2
    refine ⟨h, t, h0, ?_⟩
    rw [show (c :: x) ++ r = c :: (x ++ r) from rfl, hcons]
    simp

/-! De-tagging and outer-stripping of a simple span `"<>" ++ x ++ "</>"`
with tag-free content. -/

lemma tagfree_TagBal (x : List Char) (hx : ∀ c ∈ x, c ≠ '<') : TagBal x := by
  induction x with
  | nil => exact TagBal.nil
  | cons c rest ih =>
    exact TagBal.ch c rest (hx c (by simp))
      (ih (fun c2 h2 => hx c2 (by simp [h2])))

lemma detag_simple (x : List Char) (hx : ∀ c ∈ x, c ≠ '<') :
    detag ('<' :: '>' :: (x ++ ['<', '/', '>'])) = x := by
  unfold detag
  have hs1 : str "<>" = ['<', '>'] := rfl
  have hs2 : str "</>" = ['<', '/', '>'] := rfl
  rw [hs1, hs2]
  have hsplit1 : splitOnSub ['<', '>'] ('<' :: '>' :: (x ++ ['<', '/', '>'])) =
      [] :: splitOnSub ['<', '>'] (x ++ ['<', '/', '>']) := by
    have := splitOnSub_cons_pos ['<', '>'] '<' ('>' :: (x ++ ['<', '/', '>']))
      ⟨by simp [List.isPrefixOf], by simp⟩
    simpa using this
  obtain ⟨h, t, h0, hxa⟩ := splitOnSub_tagfree_append ['<', '>'] rfl x hx
    ['<', '/', '>']
  have hconc : splitOnSub ['<', '>'] ['<', '/', '>'] = [['<', '/', '>']] := rfl
  rw [hconc] at h0
  injection h0 with e1 e2
  subst e1
  subst e2
  obtain ⟨h2, t2, h02, hxa2⟩ := splitOnSub_tagfree_append ['<', '/', '>'] rfl x hx
    ['<', '/', '>']
  have hconc2 : splitOnSub ['<', '/', '>'] ['<', '/', '>'] = [[], []] := rfl
  rw [hconc2] at h02
  injection h02 with e1 e2
  subst e1
  subst e2
  rw [hsplit1, hxa]
  simp only [List.map_cons, List.map_nil, hxa2]
  rw [show splitOnSub ['<', '/', '>'] ([] : List Char) = [[]] from rfl]
  simp

lemma strip_outer_simple (x : List Char) :
    strip_outer ('<' :: '>' :: (x ++ ['<', '/', '>'])) = x := by
  unfold strip_outer
  have hfind : pyFind ('<' :: '>' :: (x ++ ['<', '/', '>'])) '>' = 1 := by
    simp [pyFind, pyFindAux]
  have hrfind : pyRfind ('<' :: '>' :: (x ++ ['<', '/', '>'])) '<' =
      (x.length : Int) + 2 := by
    unfold pyRfind
    have hrev : ('<' :: '>' :: (x ++ ['<', '/', '>'])).reverse =
        '>' :: '/' :: '<' :: (x.reverse ++ ['>', '<']) := by simp
    rw [hrev]
    have haux : pyFindAux '<' ('>' :: '/' :: '<' :: (x.reverse ++ ['>', '<'])) =
        some 2 := by simp [pyFindAux]
    rw [haux]
    simp only [List.length_cons, List.length_append, List.length_nil]
    push_cast
    ring
  rw [hfind, hrfind]
  unfold pySliceI
  dsimp only
  have hn : (('<' :: '>' :: (x ++ ['<', '/', '>'])).length : Int) =
      (x.length : Int) + 5 := by
    simp only [List.length_cons, List.length_append, List.length_nil]
    push_cast
    ring
  rw [hn]
  rw [if_neg (by omega), if_neg (by omega)]
  rw [show min (1 + 1 : Int) ((x.length : Int) + 5) = 2 from by omega]
  rw [show min ((x.length : Int) + 2) ((x.length : Int) + 5) =
      (x.length : Int) + 2 from by omega]
  rw [show ((2 : Int)).toNat = 2 from rfl]
  rw [show (((x.length : Int) + 2 - 2)).toNat = x.length from by omega]
  show (x ++ ['<', '/', '>']).take x.length = x
  exact List.take_left' rfl

/-- Parsing a simple span `"<>" ++ x ++ "</>"` with tag-free content
appends exactly the content `x` to the accumulator. -/
lemma a_iterateF_simple_span (x : List Char) (hx : ∀ c ∈ x, c ≠ '<') :
    ∀ (f : Nat) (alist : List (List Char)), x.length + 1 < f →
      a_iterateF f ('<' :: '>' :: (x ++ ['<', '/', '>'])) alist =
        .ok (alist ++ [x]) := by
  intro f alist hf
  obtain ⟨f1, rfl⟩ : ∃ f1, f = f1 + 1 := ⟨f - 1, by omega⟩
  rw [a_iterateF_succ_single f1 _ alist _
    (a_check_single_wrap x (tagfree_TagBal x hx))]
  rw [strip_outer_simple x]
  have hst : strip_tags ('<' :: '>' :: (x ++ ['<', '/', '>'])) alist =
      alist ++ [x] := by
    unfold strip_tags
    rw [detag_simple x hx]
  rw [hst]
  obtain ⟨f2, rfl⟩ : ∃ f2, f1 = f2 + 1 := ⟨f1 - 1, by omega⟩
  rw [a_iterateF_succ_multi f2 x (alist ++ [x]) [] (a_check_no_lt x hx) (by simp)]
  rfl

/-- The scan of two complete sibling spans separated by tag-free text
returns exactly the two spans. -/
lemma a_check_two_siblings (x m y : List Char) (hx : ∀ c ∈ x, c ≠ '<')
    (hm : ∀ c ∈ m, c ≠ '<') (hy : ∀ c ∈ y, c ≠ '<') :
    a_check ('<' :: '>' :: (x ++ '<' :: '/' :: '>' ::
        (m ++ '<' :: '>' :: (y ++ ['<', '/', '>'])))) =
      some ['<' :: '>' :: (x ++ ['<', '/', '>']),
            '<' :: '>' :: (y ++ ['<', '/', '>'])] := by
  have h1 := scan_wrap x (tagfree_TagBal x hx) []
    (m ++ '<' :: '>' :: (y ++ ['<', '/', '>'])) initSt rfl rfl
  simp only [List.nil_append, List.length_nil] at h1
  rw [show initSt.entL ++ ['<' :: '>' :: (x ++ ['<', '/', '>'])] =
      ['<' :: '>' :: (x ++ ['<', '/', '>'])] from rfl] at h1
  have hskipm : ∀ j, j < m.length → ∀ c,
      ('<' :: '>' :: (x ++ '<' :: '/' :: '>' ::
        (m ++ '<' :: '>' :: (y ++ ['<', '/', '>']))))[x.length + 5 + j]? = some c →
      c ≠ '<' := by
    intro j hj c hgc
    rw [show ('<' :: '>' :: (x ++ '<' :: '/' :: '>' ::
          (m ++ '<' :: '>' :: (y ++ ['<', '/', '>'])))) =
        ('<' :: '>' :: (x ++ ['<', '/', '>'])) ++
          (m ++ '<' :: '>' :: (y ++ ['<', '/', '>'])) from by simp] at hgc
    rw [show x.length + 5 + j =
        ('<' :: '>' :: (x ++ ['<', '/', '>'])).length + j from by
      simp only [List.length_cons, List.length_append, List.length_nil]] at hgc
    rw [getElem?_append_right_idx] at hgc
    rw [getElem?_append_left_lt m ('<' :: '>' :: (y ++ ['<', '/', '>'])) j hj] at hgc
    exact hm c (List.getElem?_mem hgc)
  have hskip := a_check_loop_skip ('<' :: '>' :: (x ++ '<' :: '/' :: '>' ::
      (m ++ '<' :: '>' :: (y ++ ['<', '/', '>'])))) m.length (x.length + 5)
    ⟨['<' :: '>' :: (x ++ ['<', '/', '>'])], 0, 0, 0, 0⟩ hskipm
  have h3 := scan_wrap y (tagfree_TagBal y hy)
    (('<' :: '>' :: (x ++ ['<', '/', '>'])) ++ m) []
    ⟨['<' :: '>' :: (x ++ ['<', '/', '>'])], 0, 0, 0, 0⟩ rfl rfl
  rw [show (('<' :: '>' :: (x ++ ['<', '/', '>'])) ++ m) ++
      '<' :: '>' :: (y ++ '<' :: '/' :: '>' :: []) =
      '<' :: '>' :: (x ++ '<' :: '/' :: '>' ::
        (m ++ '<' :: '>' :: (y ++ ['<', '/', '>']))) from by simp] at h3
  rw [show (('<' :: '>' :: (x ++ ['<', '/', '>'])) ++ m).length =
      x.length + 5 + m.length from by
    simp only [List.length_cons, List.length_append, List.length_nil]] at h3
  unfold a_check
  rw [show ('<' :: '>' :: (x ++ '<' :: '/' :: '>' ::
      (m ++ '<' :: '>' :: (y ++ ['<', '/', '>'])))).length =
      (x.length + 5) + (m.length + (y.length + 5)) from by
    simp only [List.length_cons, List.length_append, List.length_nil]
    omega]
  rw [a_check_loop_add _ (x.length + 5) (m.length + (y.length + 5)) 0 initSt, h1]
  simp only [Option.some_bind, Nat.zero_add]
  rw [a_check_loop_add _ m.length (y.length + 5) (x.length + 5) _, hskip]
  simp only [Option.some_bind]
  rw [h3]
  rfl

/-- C6: for every input consisting of two complete sibling tag spans with
tag-free contents separated by tag-free plain text, `parse` captures both
spans as independent top-level spans and returns exactly their de-tagged
contents in left-to-right order; the intervening plain text never appears
in the output. -/
theorem C6_two_siblings_parsed (x m y : List Char) (hx : ∀ c ∈ x, c ≠ '<')
    (hm : ∀ c ∈ m, c ≠ '<') (hy : ∀ c ∈ y, c ≠ '<') :
    a_iterate ('<' :: '>' :: (x ++ '<' :: '/' :: '>' ::
        (m ++ '<' :: '>' :: (y ++ ['<', '/', '>'])))) [] = .ok [x, y] := by
  have hlen : ('<' :: '>' :: (x ++ '<' :: '/' :: '>' ::
      (m ++ '<' :: '>' :: (y ++ ['<', '/', '>'])))).length =
      x.length + m.length + y.length + 10 := by
    simp only [List.length_cons, List.length_append, List.length_nil]
    omega
  unfold a_iterate
  rw [a_iterateF_succ_multi _ _ _ _ (a_check_two_siblings x m y hx hm hy)
    (by simp)]
  rw [List.foldl_cons]
  have h1 : iterStep ('<' :: '>' :: (x ++ '<' :: '/' :: '>' ::
      (m ++ '<' :: '>' :: (y ++ ['<', '/', '>'])))).length (.ok [])
      ('<' :: '>' :: (x ++ ['<', '/', '>'])) = .ok [x] := by
    have hs := a_iterateF_simple_span x hx
      (('<' :: '>' :: (x ++ '<' :: '/' :: '>' ::
        (m ++ '<' :: '>' :: (y ++ ['<', '/', '>'])))).length) []
      (by rw [hlen]; omega)
    simpa [iterStep] using hs
  rw [h1, List.foldl_cons]
  have h2 : iterStep ('<' :: '>' :: (x ++ '<' :: '/' :: '>' ::
      (m ++ '<' :: '>' :: (y ++ ['<', '/', '>'])))).length (.ok [x])
      ('<' :: '>' :: (y ++ ['<', '/', '>'])) = .ok [x, y] := by
    have hs := a_iterateF_simple_span y hy
      (('<' :: '>' :: (x ++ '<' :: '/' :: '>' ::
        (m ++ '<' :: '>' :: (y ++ ['<', '/', '>'])))).length) [x]
      (by rw [hlen]; omega)
    simpa [iterStep] using hs
  rw [h2, List.foldl_nil]

/-- C6 witness: `"<>X</> and <>Y</>"` parses to `["X", "Y"]`. -/
theorem C6_two_siblings_parsed_witness :
    a_iterate ('<' :: '>' :: (str "X" ++ '<' :: '/' :: '>' ::
        (str " and " ++ '<' :: '>' :: (str "Y" ++ ['<', '/', '>'])))) [] =
      .ok [str "X", str "Y"] :=
  C6_two_siblings_parsed (str "X") (str " and ") (str "Y")
    (by decide) (by decide) (by decide)
